import Mathlib

set_option autoImplicit false

/-!
Shallow embedding of the `IntSet` class from `IntSet.cpp`: a set of distinct
`int` values stored in a dynamically resized contiguous buffer.  The buffer is
modelled as a `List Int` of length `capacity`; the live elements are the first
`used` entries, and entries at indices in `[used, capacity)` are junk (the
implementation never reads them; freshly allocated slots are modelled as `0`).

`DEFAULT_CAPACITY` is declared in `IntSet.h`, which is not part of the sources;
every operation that consults it takes it as an explicit parameter `DC`.
-/

namespace IntSetSpec

/-- The `IntSet` object state: `capacity` (size of the dynamic array), `used`
(number of live elements), and `data` (the buffer contents). -/
structure IntSet where
  capacity : Nat
  used : Nat
  data : List Int
  deriving DecidableEq

namespace IntSet

/-- The live elements: `data[0] .. data[used-1]`. -/
def live (s : IntSet) : List Int := s.data.take s.used

/-- `IntSet::size`: returns `used`. -/
def size (s : IntSet) : Nat := s.used

/-- `IntSet::isEmpty`: `used == 0`. -/
def isEmpty (s : IntSet) : Bool := s.used == 0

/-- `IntSet::contains`: linear scan of `data[0..used)` for `anInt`. -/
def contains (s : IntSet) (anInt : Int) : Bool :=
  (s.data.take s.used).contains anInt

/-- `IntSet::resize(new_capacity)`: clamp `new_capacity` up to `used` when it is
below `used`, fall back to `DEFAULT_CAPACITY` when the clamped value is below 1,
then reallocate, copying the `used` live elements (fresh slots are junk). -/
def resize (DC : Nat) (s : IntSet) (new_capacity : Int) : IntSet :=
  let nc1 : Int := if new_capacity < (s.used : Int) then (s.used : Int) else new_capacity
  let nc2 : Nat := if nc1 < 1 then DC else nc1.toNat
  { capacity := nc2
    used := s.used
    data := s.data.take s.used ++ List.replicate (nc2 - s.used) 0 }

/-- `IntSet::IntSet(initial_capacity)`: invalid (`< 1`) hints fall back to
`DEFAULT_CAPACITY`; a buffer of that capacity is allocated, `used = 0`. -/
def create (DC : Nat) (initial_capacity : Int) : IntSet :=
  let cap : Nat := if initial_capacity < 1 then DC else initial_capacity.toNat
  { capacity := cap, used := 0, data := List.replicate cap 0 }

/-- `IntSet::IntSet(const IntSet& src)` (copy constructor): allocate a buffer of
`src.capacity`, deep-copy the `used` live elements. -/
def copy (s : IntSet) : IntSet :=
  { capacity := s.capacity
    used := s.used
    data := s.data.take s.used ++ List.replicate (s.capacity - s.used) 0 }

/-- `IntSet::operator=`: the pointer identity test `this != &rhs` is modelled by
the flag `selfAssign`; on self-assignment nothing happens, otherwise the live
elements of `rhs` are deep-copied into a fresh buffer of `rhs.capacity` and
`capacity`/`used` are adopted from `rhs`. -/
def assign (s rhs : IntSet) (selfAssign : Bool) : IntSet :=
  if selfAssign then s
  else
    { capacity := rhs.capacity
      used := rhs.used
      data := rhs.data.take rhs.used ++ List.replicate (rhs.capacity - rhs.used) 0 }

/-- `IntSet::isSubsetOf`: true for the empty set, otherwise every live element
must be `contains`-true in `otherIntSet`. -/
def isSubsetOf (s otherIntSet : IntSet) : Bool :=
  if s.isEmpty then true
  else (s.data.take s.used).all (fun x => otherIntSet.contains x)

/-- The two-space separator `DumpData` writes between successive values. -/
def sep : String := "  "

/-- `IntSet::DumpData`: live elements in index order, separated by two spaces,
nothing for an empty set. -/
def DumpData (s : IntSet) : String :=
  String.intercalate sep ((s.data.take s.used).map toString)

/-- `IntSet::reset`: `used = 0`, buffer and capacity untouched. -/
def reset (s : IntSet) : IntSet :=
  { s with used := 0 }

/-- `IntSet::add`: member already present is a no-op returning false; otherwise
grow via `resize(int(1.5 * capacity) + 1)` when full, store at index `used`,
increment `used`, return true. -/
def add (DC : Nat) (s : IntSet) (anInt : Int) : Bool × IntSet :=
  if s.contains anInt then (false, s)
  else
    let s1 := if s.capacity ≤ s.used then s.resize DC (3 * (s.capacity : Int) / 2 + 1) else s
    (true, { s1 with used := s1.used + 1, data := s1.data.set s1.used anInt })

/-- One execution of `remove`'s inner loop: `for (j = i+1; j < used; j++)
data[j-1] = data[j]` — elements at indices `(i, used)` move one slot left,
`data[used-1]` keeps its old value, all other slots are untouched. -/
def shiftLeftFrom (l : List Int) (i used : Nat) : List Int :=
  l.take i ++ (l.drop (i + 1)).take (used - 1 - i) ++ l.drop (used - 1)

/-- `remove`'s outer loop: `for (i = 0; i < used; i++) if (data[i] == anInt)
<inner shift>` — scans the (mutating) buffer and shifts at every index whose
current value matches `anInt`. -/
def removeLoop (anInt : Int) (used : Nat) (l : List Int) : List Int :=
  (List.range used).foldl
    (fun acc i => if acc.getD i 0 = anInt then shiftLeftFrom acc i used else acc) l

/-- `IntSet::remove`: non-member is a no-op returning false; otherwise run the
scan-and-shift loop, then decrement `used` once and return true. -/
def remove (s : IntSet) (anInt : Int) : Bool × IntSet :=
  if s.contains anInt then
    (true, { s with used := s.used - 1, data := removeLoop anInt s.used s.data })
  else (false, s)

/-- `IntSet::unionWith`: copy the invoking set, then for each live element of
`otherIntSet` (in order) not already contained in the result, `add` it. -/
def unionWith (DC : Nat) (s otherIntSet : IntSet) : IntSet :=
  (List.range otherIntSet.used).foldl
    (fun acc i =>
      let v := otherIntSet.data.getD i 0
      if acc.contains v then acc else (acc.add DC v).2)
    s.copy

/-- `IntSet::intersect`: copy the invoking set, then for each live element of
the (unmodified) invoking set not contained in `otherIntSet`, `remove` it from
the copy. -/
def intersect (s otherIntSet : IntSet) : IntSet :=
  (List.range s.used).foldl
    (fun acc i =>
      let v := s.data.getD i 0
      if otherIntSet.contains v then acc else (acc.remove v).2)
    s.copy

/-- `IntSet::subtract`: copy the invoking set, then for each live element of
`otherIntSet` contained in the (shrinking) copy, `remove` it. -/
def subtract (s otherIntSet : IntSet) : IntSet :=
  (List.range otherIntSet.used).foldl
    (fun acc i =>
      let v := otherIntSet.data.getD i 0
      if acc.contains v then (acc.remove v).2 else acc)
    s.copy

/-- `operator==`: true iff each operand is a subset of the other. -/
def equals (is1 is2 : IntSet) : Bool :=
  if is1.isSubsetOf is2 && is2.isSubsetOf is1 then true else false

/-- Folding `add` over a list of values (used to build concrete sets the way
the spec's examples do: repeated insertion in a given order). -/
def addAll (DC : Nat) (s : IntSet) (vs : List Int) : IntSet :=
  vs.foldl (fun acc v => (acc.add DC v).2) s

/-- The simpler union procedure of claim C10: copy the invoking set and call
`add` on every live element of the other set, without the redundant
`contains` guard. -/
def unionWithSimple (DC : Nat) (s otherIntSet : IntSet) : IntSet :=
  (List.range otherIntSet.used).foldl
    (fun acc i => (acc.add DC (otherIntSet.data.getD i 0)).2)
    s.copy

/-- Representation invariant: `used ≤ capacity`, `capacity ≥ 1`, the buffer has
exactly `capacity` slots, and the live elements are pairwise distinct. -/
def wf (s : IntSet) : Prop :=
  s.used ≤ s.capacity ∧ 1 ≤ s.capacity ∧ s.data.length = s.capacity ∧ s.live.Nodup

instance (s : IntSet) : Decidable s.wf := by
  unfold wf; infer_instance

/-! ### Basic facts about the observables -/

theorem contains_iff {s : IntSet} {v : Int} : s.contains v = true ↔ v ∈ s.live := by
  simp [contains, live, List.elem_iff]

theorem contains_false_iff {s : IntSet} {v : Int} : s.contains v = false ↔ v ∉ s.live := by
  rw [← Bool.not_eq_true, contains_iff]

theorem live_length {s : IntSet} (h : s.used ≤ s.data.length) : s.live.length = s.used := by
  simp [live, h]

/-- Taking `u` elements of a deep-copied buffer (live part plus junk padding)
recovers the live part. -/
theorem take_append_pad {l : List Int} {u n : Nat} (h : u ≤ l.length) :
    (l.take u ++ List.replicate n 0).take u = l.take u := by
  rw [List.take_append_eq_append_take, List.take_take, Nat.min_self,
    List.length_take, Nat.min_eq_left h, Nat.sub_self]
  simp

/-! ### copy -/

@[simp] theorem copy_used (s : IntSet) : s.copy.used = s.used := rfl

@[simp] theorem copy_capacity (s : IntSet) : s.copy.capacity = s.capacity := rfl

theorem copy_live {s : IntSet} (h : s.used ≤ s.data.length) : s.copy.live = s.live := by
  simp [copy, live, take_append_pad h]

theorem copy_data_length {s : IntSet} (h1 : s.used ≤ s.capacity) (h2 : s.used ≤ s.data.length) :
    s.copy.data.length = s.capacity := by
  simp [copy, List.length_take, Nat.min_eq_left h2]
  omega

theorem copy_wf {s : IntSet} (h : s.wf) : s.copy.wf := by
  obtain ⟨h1, h2, h3, h4⟩ := h
  exact ⟨h1, h2, copy_data_length h1 (h3 ▸ h1), by rw [copy_live (h3 ▸ h1)]; exact h4⟩

/-! ### resize -/

@[simp] theorem resize_used (DC : Nat) (s : IntSet) (nc : Int) :
    (s.resize DC nc).used = s.used := rfl

theorem resize_live {DC : Nat} {s : IntSet} {nc : Int} (h : s.used ≤ s.data.length) :
    (s.resize DC nc).live = s.live := by
  simp [resize, live, take_append_pad h]

/-- The capacity actually adopted by `resize`: the request clamped up to `used`,
falling back to `DEFAULT_CAPACITY` when still below 1. -/
def clampCap (DC used : Nat) (nc : Int) : Nat :=
  if (if nc < (used : Int) then (used : Int) else nc) < 1 then DC
  else (if nc < (used : Int) then (used : Int) else nc).toNat

theorem resize_eq (DC : Nat) (s : IntSet) (nc : Int) :
    s.resize DC nc =
      { capacity := clampCap DC s.used nc
        used := s.used
        data := s.data.take s.used ++ List.replicate (clampCap DC s.used nc - s.used) 0 } := rfl

theorem le_clampCap (DC used : Nat) (nc : Int) : used ≤ clampCap DC used nc := by
  unfold clampCap
  have h : (used : Int) ≤ if nc < (used : Int) then (used : Int) else nc := by split <;> omega
  generalize (if nc < (used : Int) then (used : Int) else nc) = m at h ⊢
  split <;> omega

theorem clampCap_pos {DC : Nat} (used : Nat) (nc : Int) (hDC : 1 ≤ DC) :
    1 ≤ clampCap DC used nc := by
  unfold clampCap
  generalize (if nc < (used : Int) then (used : Int) else nc) = m
  split
  · exact hDC
  · omega

theorem resize_capacity (DC : Nat) (s : IntSet) (nc : Int) :
    (s.resize DC nc).capacity = clampCap DC s.used nc := rfl

theorem resize_used_le_capacity {DC : Nat} {s : IntSet} {nc : Int} :
    s.used ≤ (s.resize DC nc).capacity :=
  le_clampCap DC s.used nc

theorem resize_capacity_pos {DC : Nat} {s : IntSet} {nc : Int} (hDC : 1 ≤ DC) :
    1 ≤ (s.resize DC nc).capacity :=
  clampCap_pos s.used nc hDC

theorem resize_data_length {DC : Nat} {s : IntSet} {nc : Int} (h : s.used ≤ s.data.length) :
    (s.resize DC nc).data.length = (s.resize DC nc).capacity := by
  have hle : s.used ≤ clampCap DC s.used nc := le_clampCap DC s.used nc
  rw [resize_eq]
  simp [List.length_take, Nat.min_eq_left h]
  omega

theorem resize_wf {DC : Nat} {s : IntSet} {nc : Int} (hDC : 1 ≤ DC) (h : s.wf) :
    (s.resize DC nc).wf := by
  obtain ⟨h1, h2, h3, h4⟩ := h
  exact ⟨resize_used_le_capacity, resize_capacity_pos hDC, resize_data_length (h3 ▸ h1),
    by rw [resize_live (h3 ▸ h1)]; exact h4⟩

/-! ### create -/

@[simp] theorem create_used (DC : Nat) (ic : Int) : (create DC ic).used = 0 := rfl

@[simp] theorem create_live (DC : Nat) (ic : Int) : (create DC ic).live = [] := by
  simp [create, live]

theorem create_capacity (DC : Nat) (ic : Int) :
    (create DC ic).capacity = if ic < 1 then DC else ic.toNat := rfl

theorem create_wf {DC : Nat} (ic : Int) (hDC : 1 ≤ DC) : (create DC ic).wf := by
  refine ⟨Nat.zero_le _, ?_, by simp [create], by simp⟩
  rw [create_capacity]
  split
  · exact hDC
  · omega

/-! ### add -/

theorem add_of_mem {DC : Nat} {s : IntSet} {v : Int} (h : s.contains v = true) :
    s.add DC v = (false, s) := by
  simp [add, h]

theorem clampCap_grow {DC c : Nat} : c < clampCap DC c (3 * (c : Int) / 2 + 1) := by
  unfold clampCap
  have h1 : (if 3 * (c : Int) / 2 + 1 < (c : Int) then (c : Int) else 3 * (c : Int) / 2 + 1)
      = 3 * (c : Int) / 2 + 1 := by
    split <;> omega
  rw [h1]
  have h2 : ¬ (3 * (c : Int) / 2 + 1 < 1) := by omega
  rw [if_neg h2]
  omega

theorem take_set_append {l : List Int} {u : Nat} {v : Int} (h : u < l.length) :
    (l.set u v).take (u + 1) = l.take u ++ [v] := by
  rw [List.set_eq_take_cons_drop v h, List.take_append_eq_append_take]
  have h1 : (List.take u l).length = u := by
    simp [List.length_take, Nat.min_eq_left (Nat.le_of_lt h)]
  rw [List.take_of_length_le (by omega), h1]
  have h3 : u + 1 - u = 1 := by omega
  rw [h3]
  simp

theorem add_of_not_mem {DC : Nat} {s : IntSet} {v : Int} (hw : s.wf) (h : s.contains v = false) :
    (s.add DC v).1 = true ∧
    (s.add DC v).2.used = s.used + 1 ∧
    (s.add DC v).2.live = s.live ++ [v] ∧
    (s.add DC v).2.wf := by
  obtain ⟨h1, h2, h3, h4⟩ := hw
  have hv : v ∉ s.live := contains_false_iff.mp h
  -- facts about the (possibly resized) intermediate set s1
  set s1 := if s.capacity ≤ s.used then s.resize DC (3 * (s.capacity : Int) / 2 + 1) else s with hs1
  have hused : s1.used = s.used := by
    rw [hs1]; split <;> rfl
  have hlive : s1.live = s.live := by
    rw [hs1]; split
    · exact resize_live (h3 ▸ h1)
    · rfl
  have hlen : s1.data.length = s1.capacity := by
    rw [hs1]; split
    · exact resize_data_length (h3 ▸ h1)
    · exact h3
  have hroom : s1.used < s1.capacity := by
    rw [hs1]; split
    · next hc =>
      have : s.used = s.capacity := Nat.le_antisymm h1 hc
      rw [resize_used, resize_capacity, this]
      exact clampCap_grow
    · next hc => omega
  have hroom' : s1.used < s1.data.length := hlen ▸ hroom
  have hadd : s.add DC v = (true, { s1 with used := s1.used + 1, data := s1.data.set s1.used v }) := by
    simp only [add, h, Bool.false_eq_true, if_false, ← hs1]
  rw [hadd]
  have hlive' : (s1.data.set s1.used v).take (s1.used + 1) = s.live ++ [v] := by
    rw [take_set_append hroom', ← hlive]; rfl
  refine ⟨rfl, by simp [hused], hlive', ?_⟩
  refine ⟨Nat.succ_le_of_lt hroom, Nat.lt_of_le_of_lt (Nat.zero_le s1.used) hroom,
    by simp [hlen], ?_⟩
  show ((s1.data.set s1.used v).take (s1.used + 1)).Nodup
  rw [hlive']
  simp [List.nodup_append, h4, hv]

theorem add_wf {DC : Nat} {s : IntSet} (v : Int) (hw : s.wf) : (s.add DC v).2.wf := by
  cases hc : s.contains v
  · exact (add_of_not_mem hw hc).2.2.2
  · rw [add_of_mem hc]; exact hw

/-! ### reset and assign -/

@[simp] theorem reset_used (s : IntSet) : s.reset.used = 0 := rfl

@[simp] theorem reset_live (s : IntSet) : s.reset.live = [] := by
  simp [reset, live]

theorem reset_wf {s : IntSet} (h : s.wf) : s.reset.wf := by
  obtain ⟨h1, h2, h3, h4⟩ := h
  exact ⟨Nat.zero_le _, h2, h3, by simp⟩

theorem assign_self (s : IntSet) : s.assign s true = s := rfl

theorem assign_other_used (s rhs : IntSet) : (s.assign rhs false).used = rhs.used := rfl

theorem assign_other_capacity (s rhs : IntSet) : (s.assign rhs false).capacity = rhs.capacity := rfl

theorem assign_other_live {s rhs : IntSet} (h : rhs.used ≤ rhs.data.length) :
    (s.assign rhs false).live = rhs.live := by
  simp [assign, live, take_append_pad h]

theorem assign_wf {s rhs : IntSet} (b : Bool) (hs : s.wf) (hr : rhs.wf) :
    (s.assign rhs b).wf := by
  cases b
  · obtain ⟨h1, h2, h3, h4⟩ := hr
    refine ⟨h1, h2, ?_, by rw [show (s.assign rhs false).live = rhs.live from
      assign_other_live (h3 ▸ h1)]; exact h4⟩
    show (rhs.data.take rhs.used ++ List.replicate (rhs.capacity - rhs.used) 0).length = rhs.capacity
    simp [List.length_take, Nat.min_eq_left (h3 ▸ h1)]
    omega
  · exact hs

/-! ### remove -/

theorem foldl_fixed {α β : Type} (f : β → α → β) {l : List α} {b : β}
    (h : ∀ x ∈ l, f b x = b) : l.foldl f b = b := by
  induction l with
  | nil => rfl
  | cons x xs ih =>
    rw [List.foldl_cons, h x (List.mem_cons_self x xs)]
    exact ih fun y hy => h y (List.mem_cons_of_mem x hy)

theorem mem_range'_bounds {m s n : Nat} (h : m ∈ List.range' s n) : s ≤ m ∧ m < s + n := by
  rw [List.mem_range'] at h
  obtain ⟨i, hi, rfl⟩ := h
  omega

/-- The scan-and-shift loop of `remove`, on a buffer whose live prefix is
`p ++ v :: q` with `v` occurring nowhere else among the live elements: the
single shift at index `p.length` runs, every other index leaves the buffer
unchanged, so the result is `p ++ q` followed by the (duplicated) old slot at
index `used - 1` and the junk region. -/
theorem removeLoop_eq {l p q : List Int} {u : Nat} {v : Int}
    (hu : u ≤ l.length) (hpq : l.take u = p ++ v :: q) (hp : v ∉ p) (hq : v ∉ q) :
    removeLoop v u l = p ++ (q ++ l.drop (u - 1)) := by
  have hLtake : (l.take u).length = u := by
    rw [List.length_take, Nat.min_eq_left hu]
  have hlen : p.length + (q.length + 1) = u := by
    have h0 := congrArg List.length hpq
    rw [hLtake] at h0
    simp at h0
    omega
  -- the whole buffer, decomposed around the unique occurrence of v
  have hl : l = p ++ v :: (q ++ l.drop u) := by
    conv_lhs => rw [← List.take_append_drop u l]
    rw [hpq]
    simp
  -- reads below p.length see p
  have hget_lt : ∀ i, i < p.length → l.getD i 0 ≠ v := by
    intro i hi
    conv_lhs => rw [hl]
    rw [List.getD_append _ _ _ _ hi, List.getD_eq_getElem _ _ hi]
    exact fun hv => hp (hv ▸ List.getElem_mem hi)
  -- the read at p.length sees v
  have hget_i0 : l.getD p.length 0 = v := by
    conv_lhs => rw [hl]
    rw [List.getD_append_right _ _ _ _ (Nat.le_refl _), Nat.sub_self]
    rfl
  -- the tail above the occurrence: q then junk
  have hdrop_i01 : l.drop (p.length + 1) = q ++ l.drop u := by
    conv_lhs => rw [hl]
    rw [show p ++ v :: (q ++ l.drop u) = (p ++ [v]) ++ (q ++ l.drop u) by simp]
    exact List.drop_left' (by simp)
  -- the take below the occurrence: p
  have htake_i0 : l.take p.length = p := by
    have h1 : l.take p.length = (l.take u).take p.length := by
      rw [List.take_take, Nat.min_eq_left (by omega)]
    rw [h1, hpq, List.take_append_eq_append_take, Nat.sub_self, List.take_zero,
      List.append_nil, List.take_length]
  -- the single shift produces p ++ q ++ (old slot at u-1 and junk)
  have hshift : shiftLeftFrom l p.length u = p ++ (q ++ l.drop (u - 1)) := by
    unfold shiftLeftFrom
    rw [htake_i0, hdrop_i01]
    have h2 : (q ++ l.drop u).take (u - 1 - p.length) = q := by
      have hq_len : u - 1 - p.length = q.length := by omega
      rw [hq_len, List.take_append_eq_append_take, Nat.sub_self, List.take_zero,
        List.append_nil, List.take_length]
    rw [h2, List.append_assoc]
  -- the slot at u - 1 of the shifted buffer still holds the old last live value,
  -- which is a member of q
  have hlast : 1 ≤ q.length → (p ++ (q ++ l.drop (u - 1))).getD (u - 1) 0 ∈ q := by
    intro hq1
    have e1 : (p ++ (q ++ l.drop (u - 1))).getD (u - 1) 0 = (l.drop (u - 1)).getD 0 0 := by
      rw [← List.append_assoc, List.getD_append_right _ _ _ _ (by simp; omega)]
      have h8 : u - 1 - (p ++ q).length = 0 := by simp; omega
      rw [h8]
    have e2 : (l.drop (u - 1)).getD 0 0 = l.getD (u - 1) 0 := by
      rw [List.drop_eq_getElem_cons (by omega : u - 1 < l.length), List.getD_cons_zero]
      exact (List.getD_eq_getElem _ _ (by omega)).symm
    have e3 : l.getD (u - 1) 0 ∈ q := by
      rw [hl, List.getD_append_right _ _ _ _ (by omega)]
      have h7 : u - 1 - p.length = (q.length - 1) + 1 := by omega
      rw [h7, List.getD_cons_succ, List.getD_append _ _ _ _ (by omega),
        List.getD_eq_getElem _ _ (by omega)]
      exact List.getElem_mem (by omega)
    rw [e1, e2]
    exact e3
  -- now run the loop: nothing happens below p.length
  unfold removeLoop
  rw [List.range_eq_range']
  have hsplit := List.range'_append_1 0 p.length (u - p.length)
  rw [Nat.zero_add] at hsplit
  have hu2 : u - p.length + p.length = u := by omega
  rw [hu2] at hsplit
  rw [← hsplit, List.foldl_append]
  set f : List Int → Nat → List Int :=
    fun acc i => if acc.getD i 0 = v then shiftLeftFrom acc i u else acc with hf
  have hphase1 : (List.range' 0 p.length).foldl f l = l := by
    apply foldl_fixed
    intro i hi
    have hib := mem_range'_bounds hi
    rw [hf]
    simp only
    rw [if_neg (hget_lt i (by omega))]
  rw [hphase1]
  -- the shift fires at p.length
  have hstep : u - p.length = (u - p.length - 1) + 1 := by omega
  rw [hstep, List.range'_succ, List.foldl_cons]
  have hfire : f l p.length = p ++ (q ++ l.drop (u - 1)) := by
    rw [hf]
    simp only
    rw [if_pos hget_i0, hshift]
  rw [hfire]
  -- and nothing happens above it
  apply foldl_fixed
  intro i hi
  have hib := mem_range'_bounds hi
  rw [hf]
  simp only
  rw [if_neg ?_]
  intro hvv
  -- reads in (p.length, u) hit q, or the duplicated old last live value, never v
  by_cases hcase : i < u - 1
  · rw [List.getD_append_right _ _ _ _ (by omega)] at hvv
    rw [List.getD_append _ _ _ _ (by omega)] at hvv
    have hmem : q.getD (i - p.length) 0 ∈ q := by
      rw [List.getD_eq_getElem _ _ (by omega)]
      exact List.getElem_mem (by omega)
    exact hq (hvv ▸ hmem)
  · have hieq : i = u - 1 := by omega
    have hq1 : 1 ≤ q.length := by omega
    rw [hieq] at hvv
    exact hq (hvv ▸ hlast hq1)

/-- Under the invariant, a member of the live region splits it as `p ++ v :: q`
with `v` in neither side. -/
theorem exists_decomp_of_mem_live {s : IntSet} {v : Int} (hw : s.wf) (hv : v ∈ s.live) :
    ∃ p q, s.live = p ++ v :: q ∧ v ∉ p ∧ v ∉ q := by
  obtain ⟨p, q, hpq⟩ := List.append_of_mem hv
  have hnd : (p ++ v :: q).Nodup := hpq ▸ hw.2.2.2
  obtain ⟨np, nvq, disj⟩ := List.nodup_append.mp hnd
  exact ⟨p, q, hpq, fun hmem => disj hmem (List.mem_cons_self v q),
    (List.nodup_cons.mp nvq).1⟩

theorem remove_of_not_mem {s : IntSet} {v : Int} (h : s.contains v = false) :
    s.remove v = (false, s) := by
  simp [remove, h]

theorem remove_of_mem {s : IntSet} {v : Int} (hw : s.wf) (h : s.contains v = true) :
    (s.remove v).1 = true ∧
    (s.remove v).2.used = s.used - 1 ∧
    (s.remove v).2.live = s.live.erase v ∧
    (s.remove v).2.wf := by
  obtain ⟨hw1, hw2, hw3, hw4⟩ := hw
  have hv : v ∈ s.live := contains_iff.mp h
  obtain ⟨p, q, hpq, hp, hq⟩ := exists_decomp_of_mem_live ⟨hw1, hw2, hw3, hw4⟩ hv
  have hu : s.used ≤ s.data.length := hw3 ▸ hw1
  have hlen : p.length + (q.length + 1) = s.used := by
    have h0 := congrArg List.length hpq
    rw [live_length hu] at h0
    simp at h0
    omega
  have hRL : removeLoop v s.used s.data = p ++ (q ++ s.data.drop (s.used - 1)) :=
    removeLoop_eq hu hpq hp hq
  have hrem : s.remove v =
      (true, { s with used := s.used - 1, data := removeLoop v s.used s.data }) := by
    simp [remove, h]
  rw [hrem]
  have herase : s.live.erase v = p ++ q := by
    rw [hpq, List.erase_append_right (v :: q) hp, List.erase_cons_head]
  have hlive : (removeLoop v s.used s.data).take (s.used - 1) = p ++ q := by
    rw [hRL, List.take_append_eq_append_take, List.take_of_length_le (by omega),
      List.take_append_eq_append_take, List.take_of_length_le (by omega)]
    have h9 : s.used - 1 - p.length - q.length = 0 := by omega
    rw [h9, List.take_zero, List.append_nil]
  have hRLlen : (removeLoop v s.used s.data).length = s.data.length := by
    rw [hRL]
    simp [List.length_drop]
    omega
  have hnd : (p ++ q).Nodup := by
    have hnd0 : (p ++ v :: q).Nodup := hpq ▸ hw4
    obtain ⟨np, nvq, disj⟩ := List.nodup_append.mp hnd0
    exact List.nodup_append.mpr ⟨np, (List.nodup_cons.mp nvq).2,
      fun a ha hb => disj ha (List.mem_cons_of_mem v hb)⟩
  refine ⟨rfl, rfl, ?_, ?_, hw2, ?_, ?_⟩
  · show (removeLoop v s.used s.data).take (s.used - 1) = s.live.erase v
    rw [hlive, herase]
  · show s.used - 1 ≤ s.capacity
    omega
  · show (removeLoop v s.used s.data).length = s.capacity
    rw [hRLlen, hw3]
  · show ((removeLoop v s.used s.data).take (s.used - 1)).Nodup
    rw [hlive]
    exact hnd

theorem remove_wf {s : IntSet} (v : Int) (hw : s.wf) : (s.remove v).2.wf := by
  cases hc : s.contains v
  · rw [remove_of_not_mem hc]; exact hw
  · exact (remove_of_mem hw hc).2.2.2

/-- After a successful removal the value is gone from the live region. -/
theorem remove_not_contains {s : IntSet} {v : Int} (hw : s.wf) (h : s.contains v = true) :
    (s.remove v).2.contains v = false := by
  rw [contains_false_iff, (remove_of_mem hw h).2.2.1]
  exact hw.2.2.2.not_mem_erase

/-! ### isSubsetOf, equality, dump -/

theorem contains_eq_live (s : IntSet) (v : Int) : s.contains v = s.live.contains v := rfl

theorem DumpData_eq (s : IntSet) :
    s.DumpData = String.intercalate sep (s.live.map toString) := rfl

theorem isSubsetOf_iff {s t : IntSet} :
    s.isSubsetOf t = true ↔ ∀ v ∈ s.live, t.contains v = true := by
  unfold isSubsetOf
  split
  · next he =>
    simp only [isEmpty, beq_iff_eq] at he
    simp [live, he]
  · simp [live]

theorem isSubsetOf_of_empty {s t : IntSet} (h : s.isEmpty = true) :
    s.isSubsetOf t = true := by
  unfold isSubsetOf
  rw [if_pos h]

theorem equals_eq (a b : IntSet) : equals a b = (a.isSubsetOf b && b.isSubsetOf a) := by
  unfold equals
  cases h : (a.isSubsetOf b && b.isSubsetOf a) <;> simp [h]

theorem equals_iff_same_members {a b : IntSet} :
    equals a b = true ↔ ∀ v : Int, a.contains v = true ↔ b.contains v = true := by
  rw [equals_eq, Bool.and_eq_true, isSubsetOf_iff, isSubsetOf_iff]
  constructor
  · rintro ⟨h1, h2⟩ v
    exact ⟨fun hv => h1 v (contains_iff.mp hv), fun hv => h2 v (contains_iff.mp hv)⟩
  · intro h
    exact ⟨fun v hv => (h v).mp (contains_iff.mpr hv),
      fun v hv => (h v).mpr (contains_iff.mpr hv)⟩

/-! ### Reading the loops of the derived operations as folds over live lists -/

theorem foldl_range_getD {α : Type} (g : α → Int → α) (l : List Int) (n : Nat) (a : α)
    (h : n ≤ l.length) :
    (List.range n).foldl (fun acc i => g acc (l.getD i 0)) a = (l.take n).foldl g a := by
  induction n with
  | zero => simp
  | succ m ih =>
    have hm : m < l.length := by omega
    rw [List.range_succ, List.foldl_append, ih (by omega), List.take_succ,
      List.getElem?_eq_getElem hm]
    show List.foldl _ _ [m] = List.foldl g _ (List.take m l ++ [l[m]])
    rw [List.foldl_append]
    simp only [List.foldl_cons, List.foldl_nil]
    rw [List.getD_eq_getElem _ _ hm]

theorem unionWith_eq_foldl {DC : Nat} {s t : IntSet} (ht : t.used ≤ t.data.length) :
    s.unionWith DC t =
      t.live.foldl (fun acc v => if acc.contains v then acc else (acc.add DC v).2) s.copy := by
  have h := foldl_range_getD
    (fun (acc : IntSet) (v : Int) => if acc.contains v then acc else (acc.add DC v).2)
    t.data t.used s.copy ht
  exact h

theorem intersect_eq_foldl {s t : IntSet} (hs : s.used ≤ s.data.length) :
    s.intersect t =
      s.live.foldl (fun acc v => if t.contains v then acc else (acc.remove v).2) s.copy := by
  have h := foldl_range_getD
    (fun (acc : IntSet) (v : Int) => if t.contains v then acc else (acc.remove v).2)
    s.data s.used s.copy hs
  exact h

theorem subtract_eq_foldl {s t : IntSet} (ht : t.used ≤ t.data.length) :
    s.subtract t =
      t.live.foldl (fun acc v => if acc.contains v then (acc.remove v).2 else acc) s.copy := by
  have h := foldl_range_getD
    (fun (acc : IntSet) (v : Int) => if acc.contains v then (acc.remove v).2 else acc)
    t.data t.used s.copy ht
  exact h

theorem unionWithSimple_eq_foldl {DC : Nat} {s t : IntSet} (ht : t.used ≤ t.data.length) :
    s.unionWithSimple DC t = t.live.foldl (fun acc v => (acc.add DC v).2) s.copy := by
  have h := foldl_range_getD (fun (acc : IntSet) (v : Int) => (acc.add DC v).2)
    t.data t.used s.copy ht
  exact h

/-! ### Live contents of the derived operations -/

theorem remove_live_erase {s : IntSet} (v : Int) (hw : s.wf) :
    (s.remove v).2.live = s.live.erase v := by
  cases hc : s.contains v
  · rw [remove_of_not_mem hc, List.erase_of_not_mem (contains_false_iff.mp hc)]
  · exact (remove_of_mem hw hc).2.2.1

theorem copy_contains {s : IntSet} (v : Int) (h : s.used ≤ s.data.length) :
    s.copy.contains v = s.contains v := by
  rw [contains_eq_live, contains_eq_live, copy_live h]

theorem contains_mem_iff {L : List Int} {y : Int} : L.contains y = true ↔ y ∈ L :=
  List.elem_iff

theorem contains_append_single {L : List Int} {x y : Int} (hxy : y ≠ x) :
    (L ++ [x]).contains y = L.contains y := by
  cases hc : L.contains y
  · cases hc2 : (L ++ [x]).contains y
    · rfl
    · exfalso
      have hm := contains_mem_iff.mp hc2
      rcases List.mem_append.mp hm with h | h
      · rw [contains_mem_iff.mpr h] at hc
        cases hc
      · exact hxy (List.mem_singleton.mp h)
  · exact contains_mem_iff.mpr (List.mem_append_left _ (contains_mem_iff.mp hc))

/-- The guarded-`add` loop of `unionWith`: appends exactly the processed values
not already present at entry, in processing order. -/
theorem foldl_addGuard (DC : Nat) : ∀ (ws : List Int) (C : IntSet), C.wf → ws.Nodup →
    ((ws.foldl (fun acc v => if acc.contains v then acc else (acc.add DC v).2) C).live
        = C.live ++ ws.filter (fun v => !C.contains v)) ∧
    (ws.foldl (fun acc v => if acc.contains v then acc else (acc.add DC v).2) C).wf := by
  intro ws
  induction ws with
  | nil => intro C hw _; exact ⟨by simp, hw⟩
  | cons x xs ih =>
    intro C hw hnd
    rw [List.foldl_cons, List.filter_cons]
    cases hx : C.contains x
    · obtain ⟨_, _, hlive, hwf'⟩ := add_of_not_mem hw hx
      have hrec := ih (C.add DC x).2 hwf' (List.nodup_cons.mp hnd).2
      simp only [hx, Bool.false_eq_true, if_false, Bool.not_false, if_true]
      refine ⟨?_, hrec.2⟩
      rw [hrec.1, hlive]
      have hfeq : xs.filter (fun v => !(C.add DC x).2.contains v)
          = xs.filter (fun v => !C.contains v) := by
        apply List.filter_congr
        intro y hy
        have hyx : y ≠ x := by
          intro he
          exact (List.nodup_cons.mp hnd).1 (he ▸ hy)
        have hcy : (C.add DC x).2.contains y = C.contains y := by
          rw [contains_eq_live, hlive, contains_append_single hyx, ← contains_eq_live]
        rw [hcy]
      rw [hfeq]
      simp
    · simp only [hx, if_true, Bool.not_true, Bool.false_eq_true, if_false]
      exact ih C hw (List.nodup_cons.mp hnd).2

theorem unionWith_live {DC : Nat} {A B : IntSet} (hA : A.wf) (hB : B.wf) :
    (A.unionWith DC B).live = A.live ++ B.live.filter (fun v => !A.contains v) ∧
    (A.unionWith DC B).wf := by
  rw [unionWith_eq_foldl (hB.2.2.1 ▸ hB.1)]
  have h := foldl_addGuard DC B.live A.copy (copy_wf hA) hB.2.2.2
  have hle : A.used ≤ A.data.length := hA.2.2.1 ▸ hA.1
  refine ⟨?_, h.2⟩
  rw [h.1, copy_live hle]
  have hfeq : B.live.filter (fun v => !A.copy.contains v)
      = B.live.filter (fun v => !A.contains v) := by
    apply List.filter_congr
    intro y _
    rw [copy_contains y hle]
  rw [hfeq]

/-- The conditional-`remove` loop of `intersect`, pushed down to the live list:
each processed value not contained in `t` erases its occurrence. -/
theorem foldl_removeIf_live (t : IntSet) : ∀ (ws : List Int) (C : IntSet), C.wf →
    ((ws.foldl (fun acc v => if t.contains v then acc else (acc.remove v).2) C).live
        = ws.foldl (fun L v => if t.contains v then L else L.erase v) C.live) ∧
    (ws.foldl (fun acc v => if t.contains v then acc else (acc.remove v).2) C).wf := by
  intro ws
  induction ws with
  | nil => exact fun C hw => ⟨rfl, hw⟩
  | cons x xs ih =>
    intro C hw
    rw [List.foldl_cons, List.foldl_cons]
    cases hx : t.contains x
    · simp only [hx, Bool.false_eq_true, if_false]
      have hrec := ih (C.remove x).2 (remove_wf x hw)
      exact ⟨by rw [hrec.1, remove_live_erase x hw], hrec.2⟩
    · simp only [hx, if_true]
      exact ih C hw

/-- The `contains`-guarded `remove` loop of `subtract`, pushed down to the live
list: every processed value erases its occurrence (a no-op when absent). -/
theorem foldl_removeAll_live : ∀ (ws : List Int) (C : IntSet), C.wf →
    ((ws.foldl (fun acc v => if acc.contains v then (acc.remove v).2 else acc) C).live
        = ws.foldl (fun L v => L.erase v) C.live) ∧
    (ws.foldl (fun acc v => if acc.contains v then (acc.remove v).2 else acc) C).wf := by
  intro ws
  induction ws with
  | nil => exact fun C hw => ⟨rfl, hw⟩
  | cons x xs ih =>
    intro C hw
    rw [List.foldl_cons, List.foldl_cons]
    cases hx : C.contains x
    · simp only [hx, Bool.false_eq_true, if_false]
      have hrec := ih C hw
      have he : C.live.erase x = C.live :=
        List.erase_of_not_mem (contains_false_iff.mp hx)
      rw [he]
      exact hrec
    · simp only [hx, if_true]
      have hrec := ih (C.remove x).2 (remove_wf x hw)
      exact ⟨by rw [hrec.1, remove_live_erase x hw], hrec.2⟩

/-- List-level: a chain of conditional erases is a filter. -/
theorem foldl_eraseIf_filter (t : IntSet) : ∀ (ws M : List Int), M.Nodup →
    ws.foldl (fun L v => if t.contains v then L else L.erase v) M
      = M.filter (fun x => t.contains x || !ws.contains x) := by
  intro ws
  induction ws with
  | nil =>
    intro M _
    simp
  | cons y ys ih =>
    intro M hnd
    rw [List.foldl_cons]
    cases hy : t.contains y
    · simp only [hy, Bool.false_eq_true, if_false]
      rw [ih (M.erase y) (hnd.erase y), hnd.erase_eq_filter y, List.filter_filter]
      apply List.filter_congr
      intro x _
      by_cases hxy : x = y
      · subst hxy
        simp [hy]
      · simp [hxy, hy]
    · simp only [hy, if_true]
      rw [ih M hnd]
      apply List.filter_congr
      intro x _
      by_cases hxy : x = y
      · subst hxy
        simp [hy]
      · simp [hxy]

/-- List-level: a chain of unconditional erases is a filter. -/
theorem foldl_erase_filter : ∀ (ws M : List Int), M.Nodup →
    ws.foldl (fun L v => L.erase v) M = M.filter (fun x => !ws.contains x) := by
  intro ws
  induction ws with
  | nil =>
    intro M _
    simp
  | cons y ys ih =>
    intro M hnd
    rw [List.foldl_cons, ih (M.erase y) (hnd.erase y), hnd.erase_eq_filter y,
      List.filter_filter]
    apply List.filter_congr
    intro x _
    by_cases hxy : x = y
    · subst hxy
      simp
    · simp [hxy]

theorem intersect_live {A B : IntSet} (hA : A.wf) :
    (A.intersect B).live = A.live.filter (fun v => B.contains v) ∧
    (A.intersect B).wf := by
  rw [intersect_eq_foldl (hA.2.2.1 ▸ hA.1)]
  have hle : A.used ≤ A.data.length := hA.2.2.1 ▸ hA.1
  have h := foldl_removeIf_live B A.live A.copy (copy_wf hA)
  refine ⟨?_, h.2⟩
  rw [h.1, copy_live hle, foldl_eraseIf_filter B A.live A.live hA.2.2.2]
  apply List.filter_congr
  intro x hx
  rw [contains_mem_iff.mpr hx]
  simp

theorem subtract_live {A B : IntSet} (hA : A.wf) (hB : B.wf) :
    (A.subtract B).live = A.live.filter (fun v => !B.contains v) ∧
    (A.subtract B).wf := by
  rw [subtract_eq_foldl (hB.2.2.1 ▸ hB.1)]
  have hle : A.used ≤ A.data.length := hA.2.2.1 ▸ hA.1
  have h := foldl_removeAll_live B.live A.copy (copy_wf hA)
  refine ⟨?_, h.2⟩
  rw [h.1, copy_live hle, foldl_erase_filter B.live A.live hA.2.2.2]
  rfl

theorem addAll_live (DC : Nat) : ∀ (vs : List Int) (s : IntSet), s.wf → vs.Nodup →
    (∀ x ∈ vs, x ∉ s.live) →
    ((addAll DC s vs).live = s.live ++ vs) ∧ (addAll DC s vs).wf := by
  intro vs
  induction vs with
  | nil =>
    intro s hw _ _
    exact ⟨by simp [addAll], hw⟩
  | cons x xs ih =>
    intro s hw hnd hdis
    have hx : s.contains x = false :=
      contains_false_iff.mpr (hdis x (List.mem_cons_self x xs))
    obtain ⟨_, _, hlive, hwf'⟩ := add_of_not_mem hw hx
    have hdis' : ∀ y ∈ xs, y ∉ (s.add DC x).2.live := by
      intro y hy
      rw [hlive]
      have hyx : y ≠ x := by
        intro he
        exact (List.nodup_cons.mp hnd).1 (he ▸ hy)
      simp [List.mem_append, hyx]
      exact hdis y (List.mem_cons_of_mem x hy)
    have hrec := ih (s.add DC x).2 hwf' (List.nodup_cons.mp hnd).2 hdis'
    unfold addAll at hrec ⊢
    rw [List.foldl_cons]
    exact ⟨by rw [hrec.1, hlive]; simp, hrec.2⟩

end IntSet

/-! ### A small heap model for buffer ownership and copy independence

Each `IntSet` owns a dynamic array obtained from `new int[...]`.  The heap is
the list of allocated buffers in allocation order; `new` always returns a block
distinct from every live block (modelled by appending), and a released buffer
always belonged to the mutated object alone, so releases need not be tracked
for frame reasoning about other objects. -/

structure Heap where
  bufs : List (List Int)
  deriving DecidableEq

/-- An `IntSet` object as it sits in memory: its buffer pointer (as an
allocation index) and its `capacity`/`used` fields. -/
structure ObjRef where
  buf : Nat
  capacity : Nat
  used : Nat
  deriving DecidableEq

namespace Heap

/-- Dereference: the object state an `ObjRef` denotes in a heap. -/
def read (h : Heap) (o : ObjRef) : IntSet :=
  { capacity := o.capacity, used := o.used, data := h.bufs.getD o.buf [] }

/-- Allocate a fresh buffer; returns the new heap and the fresh index. -/
def alloc (h : Heap) (content : List Int) : Heap × Nat :=
  ({ bufs := h.bufs ++ [content] }, h.bufs.length)

/-- Overwrite the buffer at index `i` in place. -/
def writeBuf (h : Heap) (i : Nat) (content : List Int) : Heap :=
  { bufs := h.bufs.set i content }

end Heap

/-- Heap-level copy constructor: deep-copy the live elements into a freshly
allocated buffer of the source's capacity. -/
def copyCtorH (h : Heap) (src : ObjRef) : Heap × ObjRef :=
  let c := (h.read src).copy
  ((h.alloc c.data).1, ⟨(h.alloc c.data).2, c.capacity, c.used⟩)

/-- Heap-level `add`: on the resize path a fresh buffer is allocated (and the
old one, owned by this object alone, released); otherwise the write
`data[used] = anInt` lands in the object's own buffer. -/
def addH (DC : Nat) (h : Heap) (o : ObjRef) (v : Int) : Bool × Heap × ObjRef :=
  let s := h.read o
  let r := s.add DC v
  if r.1 && decide (s.capacity ≤ s.used) then
    (r.1, (h.alloc r.2.data).1, ⟨(h.alloc r.2.data).2, r.2.capacity, r.2.used⟩)
  else
    (r.1, h.writeBuf o.buf r.2.data, ⟨o.buf, r.2.capacity, r.2.used⟩)

/-- Heap-level `remove`: the shifts happen in place in the object's own
buffer. -/
def removeH (h : Heap) (o : ObjRef) (v : Int) : Bool × Heap × ObjRef :=
  let r := (h.read o).remove v
  (r.1, h.writeBuf o.buf r.2.data, ⟨o.buf, o.capacity, r.2.used⟩)

/-- Heap-level `unionWith`: the result is built in storage of its own and comes
back in a fresh allocation; the operands are only read. -/
def unionWithH (DC : Nat) (h : Heap) (a b : ObjRef) : Heap × ObjRef :=
  let r := (h.read a).unionWith DC (h.read b)
  ((h.alloc r.data).1, ⟨(h.alloc r.data).2, r.capacity, r.used⟩)

/-- Heap-level `intersect`; see `unionWithH`. -/
def intersectH (h : Heap) (a b : ObjRef) : Heap × ObjRef :=
  let r := (h.read a).intersect (h.read b)
  ((h.alloc r.data).1, ⟨(h.alloc r.data).2, r.capacity, r.used⟩)

/-- Heap-level `subtract`; see `unionWithH`. -/
def subtractH (h : Heap) (a b : ObjRef) : Heap × ObjRef :=
  let r := (h.read a).subtract (h.read b)
  ((h.alloc r.data).1, ⟨(h.alloc r.data).2, r.capacity, r.used⟩)

/-! Frame lemmas for the heap model -/

theorem read_alloc {h : Heap} {o : ObjRef} (ho : o.buf < h.bufs.length) (c : List Int) :
    (h.alloc c).1.read o = h.read o := by
  unfold Heap.read Heap.alloc
  rw [List.getD_append _ _ _ _ ho]

theorem read_alloc_new (h : Heap) (c : List Int) (cap u : Nat) :
    (h.alloc c).1.read ⟨(h.alloc c).2, cap, u⟩ = ⟨cap, u, c⟩ := by
  unfold Heap.read Heap.alloc
  rw [List.getD_append_right _ _ _ _ (Nat.le_refl _), Nat.sub_self]
  rfl

theorem read_writeBuf_ne {h : Heap} {o : ObjRef} {i : Nat} (hne : o.buf ≠ i) (c : List Int) :
    (h.writeBuf i c).read o = h.read o := by
  unfold Heap.read Heap.writeBuf
  rw [List.getD_eq_getElem?_getD, List.getD_eq_getElem?_getD,
    List.getElem?_set_ne (Ne.symm hne)]

theorem addH_frame {DC : Nat} {h : Heap} {o p : ObjRef} {v : Int}
    (hne : p.buf ≠ o.buf) (hp : p.buf < h.bufs.length) :
    (addH DC h o v).2.1.read p = h.read p := by
  dsimp only [addH]
  split
  · exact read_alloc hp _
  · exact read_writeBuf_ne hne _

theorem removeH_frame {h : Heap} {o p : ObjRef} {v : Int} (hne : p.buf ≠ o.buf) :
    (removeH h o v).2.1.read p = h.read p :=
  read_writeBuf_ne hne _

namespace IntSet

/-- When the buffer is full, the capacity requested by `add` survives both
clamps unchanged. -/
theorem clampCap_full (DC c : Nat) : clampCap DC c (3 * (c : Int) / 2 + 1) = 3 * c / 2 + 1 := by
  unfold clampCap
  rw [if_neg (by omega : ¬ (3 * (c : Int) / 2 + 1 < (c : Int))),
    if_neg (by omega : ¬ (3 * (c : Int) / 2 + 1 < 1))]
  omega

/-! ### The claims -/

/-- C1: if `v` is a member, `remove v` returns true, removes exactly the one
occurrence of `v` by left-shifting the elements after it (so the new live list
is the old one with that single occurrence erased, the relative order of all
other surviving elements preserved), and decrements `size` by exactly 1; if
`v` is not a member, `remove v` returns false and leaves the set unchanged. -/
theorem remove_spec (s : IntSet) (v : Int) (hw : s.wf) :
    (s.contains v = true →
      (s.remove v).1 = true ∧
      (s.remove v).2.live = s.live.erase v ∧
      (s.remove v).2.contains v = false ∧
      (s.remove v).2.size + 1 = s.size ∧
      (s.remove v).2.wf) ∧
    (s.contains v = false → s.remove v = (false, s)) := by
  constructor
  · intro h
    obtain ⟨h1, h2, h3, h4⟩ := remove_of_mem hw h
    refine ⟨h1, h3, remove_not_contains hw h, ?_, h4⟩
    have hv : v ∈ s.live := contains_iff.mp h
    have hpos : 0 < s.used := by
      rw [← live_length (hw.2.2.1 ▸ hw.1)]
      exact List.length_pos.mpr (List.ne_nil_of_mem hv)
    show (s.remove v).2.used + 1 = s.used
    rw [h2]
    omega
  · exact remove_of_not_mem

/-- C2: adding an existing member returns false and changes nothing; adding a
new value returns true, makes it contained, grows `size` by exactly 1 and
places the value at the highest live index. -/
theorem add_spec (DC : Nat) (s : IntSet) (v : Int) (hw : s.wf) :
    (s.contains v = true → s.add DC v = (false, s)) ∧
    (s.contains v = false →
      (s.add DC v).1 = true ∧
      (s.add DC v).2.contains v = true ∧
      (s.add DC v).2.size = s.size + 1 ∧
      (s.add DC v).2.live = s.live ++ [v] ∧
      (s.add DC v).2.wf) := by
  refine ⟨fun h => add_of_mem h, fun h => ?_⟩
  obtain ⟨h1, h2, h3, h4⟩ := add_of_not_mem hw h
  refine ⟨h1, ?_, h2, h3, h4⟩
  rw [contains_iff, h3]
  simp

/-- C3: construction, copy, assignment, add, remove, reset, resize and the
derived set operations all preserve the representation invariant (`used ≤
capacity`, `capacity ≥ 1`, a `capacity`-sized buffer, pairwise-distinct live
elements). -/
theorem wf_preservation (DC : Nat) (hDC : 1 ≤ DC) (s t : IntSet) (hs : s.wf) (ht : t.wf)
    (ic nc : Int) (v : Int) (b : Bool) :
    (create DC ic).wf ∧ s.copy.wf ∧ (s.assign t b).wf ∧ ((s.add DC v).2).wf ∧
    ((s.remove v).2).wf ∧ s.reset.wf ∧ (s.resize DC nc).wf ∧
    (s.unionWith DC t).wf ∧ (s.intersect t).wf ∧ (s.subtract t).wf :=
  ⟨create_wf ic hDC, copy_wf hs, assign_wf b hs ht, add_wf v hs, remove_wf v hs,
    reset_wf hs, resize_wf hDC hs, (unionWith_live hs ht).2, (intersect_live hs).2,
    (subtract_live hs ht).2⟩

/-- C4: `resize` clamps the request up to `used`, falls back to
`DEFAULT_CAPACITY` when the clamped value is below 1, and preserves the live
elements in order; a full `add` requests `⌊1.5 · capacity⌋ + 1`; inserting
`DEFAULT_CAPACITY + 1` distinct values into a default-constructed set succeeds
with every value contained and `size` equal to the count inserted. -/
theorem growth_policy_spec (DC : Nat) (hDC : 1 ≤ DC) (s : IntSet) (hw : s.wf)
    (nc : Int) (v : Int) (vs : List Int) (hnd : vs.Nodup) (hvs : vs.length = DC + 1) :
    ((s.resize DC nc).capacity
        = (if (if nc < (s.used : Int) then (s.used : Int) else nc) < 1 then DC
           else (if nc < (s.used : Int) then (s.used : Int) else nc).toNat)) ∧
    (s.resize DC nc).used = s.used ∧
    (s.resize DC nc).live = s.live ∧
    (s.used = s.capacity → s.contains v = false →
      (s.add DC v).2.capacity = 3 * s.capacity / 2 + 1) ∧
    ((addAll DC (create DC (DC : Int)) vs).size = DC + 1 ∧
      ∀ x ∈ vs, (addAll DC (create DC (DC : Int)) vs).contains x = true) := by
  refine ⟨rfl, rfl, resize_live (hw.2.2.1 ▸ hw.1), ?_, ?_⟩
  · intro hfull hnc
    have hcap : (s.add DC v).2.capacity = clampCap DC s.used (3 * (s.capacity : Int) / 2 + 1) := by
      simp only [add, hnc, Bool.false_eq_true, if_false,
        if_pos (le_of_eq hfull.symm)]
      rfl
    rw [hcap, hfull, clampCap_full]
  · have hcr : (create DC (DC : Int)).wf := create_wf _ hDC
    have h := addAll_live DC vs (create DC (DC : Int)) hcr hnd (by simp)
    constructor
    · show (addAll DC (create DC (DC : Int)) vs).used = DC + 1
      have hl := live_length ((h.2).2.2.1 ▸ (h.2).1)
      rw [h.1] at hl
      simp at hl
      omega
    · intro x hx
      rw [contains_iff, h.1]
      simp [hx]

/-- C5: `unionWith` yields A's elements in A's order followed by B's exclusive
elements in B's order; `intersect` yields the common elements in A's order;
`subtract` yields A's elements not in B, in A's order; in particular, for
A = {1,2,3} and B = {2,3,4} the dumps are "1  2  3  4", "2  3" and "1". -/
theorem setops_spec (DC : Nat) (A B : IntSet) (hA : A.wf) (hB : B.wf) :
    (A.unionWith DC B).live = A.live ++ B.live.filter (fun v => !A.contains v) ∧
    (A.intersect B).live = A.live.filter (fun v => B.contains v) ∧
    (A.subtract B).live = A.live.filter (fun v => !B.contains v) ∧
    (A.live = [1, 2, 3] → B.live = [2, 3, 4] →
      (A.unionWith DC B).DumpData = "1  2  3  4" ∧
      (A.intersect B).DumpData = "2  3" ∧
      (A.subtract B).DumpData = "1") := by
  have hu := (@unionWith_live DC A B hA hB).1
  have hi := (@intersect_live A B hA).1
  have hsu := (subtract_live hA hB).1
  refine ⟨hu, hi, hsu, fun hAl hBl => ⟨?_, ?_, ?_⟩⟩
  · rw [DumpData_eq, hu, hAl, hBl,
      show (fun v => !A.contains v) = (fun v : Int => !([1, 2, 3].contains v)) by
        funext v
        rw [contains_eq_live, hAl]]
    rfl
  · rw [DumpData_eq, hi, hAl,
      show (fun v => B.contains v) = (fun v : Int => [2, 3, 4].contains v) by
        funext v
        rw [contains_eq_live, hBl]]
    rfl
  · rw [DumpData_eq, hsu, hAl,
      show (fun v => !B.contains v) = (fun v : Int => !([2, 3, 4].contains v)) by
        funext v
        rw [contains_eq_live, hBl]]
    rfl

/-- C6: in the heap model, the three derived operations only read their
operands and return an object with a freshly allocated buffer, and a
copy-constructed object has a fresh buffer with the source's deep-copied
state, so mutating either of source and copy (add/remove) leaves what the
other one denotes — hence its `contains`/`size` results — unchanged. -/
theorem independence_spec (DC : Nat) (h : Heap) (a b : ObjRef) (v : Int)
    (ha : a.buf < h.bufs.length) (hb : b.buf < h.bufs.length) :
    ((unionWithH DC h a b).1.read a = h.read a ∧
     (unionWithH DC h a b).1.read b = h.read b ∧
     (unionWithH DC h a b).2.buf ≠ a.buf ∧ (unionWithH DC h a b).2.buf ≠ b.buf ∧
     (unionWithH DC h a b).1.read (unionWithH DC h a b).2
        = (h.read a).unionWith DC (h.read b)) ∧
    ((intersectH h a b).1.read a = h.read a ∧
     (intersectH h a b).1.read b = h.read b ∧
     (intersectH h a b).2.buf ≠ a.buf ∧ (intersectH h a b).2.buf ≠ b.buf ∧
     (intersectH h a b).1.read (intersectH h a b).2 = (h.read a).intersect (h.read b)) ∧
    ((subtractH h a b).1.read a = h.read a ∧
     (subtractH h a b).1.read b = h.read b ∧
     (subtractH h a b).2.buf ≠ a.buf ∧ (subtractH h a b).2.buf ≠ b.buf ∧
     (subtractH h a b).1.read (subtractH h a b).2 = (h.read a).subtract (h.read b)) ∧
    ((copyCtorH h a).2.buf ≠ a.buf ∧
     (copyCtorH h a).1.read a = h.read a ∧
     (copyCtorH h a).1.read (copyCtorH h a).2 = (h.read a).copy ∧
     (addH DC (copyCtorH h a).1 (copyCtorH h a).2 v).2.1.read a = h.read a ∧
     (removeH (copyCtorH h a).1 (copyCtorH h a).2 v).2.1.read a = h.read a ∧
     (addH DC (copyCtorH h a).1 a v).2.1.read (copyCtorH h a).2
        = (copyCtorH h a).1.read (copyCtorH h a).2 ∧
     (removeH (copyCtorH h a).1 a v).2.1.read (copyCtorH h a).2
        = (copyCtorH h a).1.read (copyCtorH h a).2) := by
  have hbufeq : (copyCtorH h a).2.buf = h.bufs.length := rfl
  have hlen1 : (copyCtorH h a).1.bufs.length = h.bufs.length + 1 := by
    show (h.bufs ++ [((h.read a).copy).data]).length = h.bufs.length + 1
    simp
  refine ⟨⟨read_alloc ha _, read_alloc hb _, ?_, ?_, read_alloc_new h _ _ _⟩,
    ⟨read_alloc ha _, read_alloc hb _, ?_, ?_, read_alloc_new h _ _ _⟩,
    ⟨read_alloc ha _, read_alloc hb _, ?_, ?_, read_alloc_new h _ _ _⟩,
    ?_, read_alloc ha _, read_alloc_new h _ _ _, ?_, ?_, ?_, ?_⟩
  · show h.bufs.length ≠ a.buf
    omega
  · show h.bufs.length ≠ b.buf
    omega
  · show h.bufs.length ≠ a.buf
    omega
  · show h.bufs.length ≠ b.buf
    omega
  · show h.bufs.length ≠ a.buf
    omega
  · show h.bufs.length ≠ b.buf
    omega
  · show h.bufs.length ≠ a.buf
    omega
  · rw [addH_frame (by rw [hbufeq]; omega) (by rw [hlen1]; omega)]
    exact read_alloc ha _
  · rw [removeH_frame (by rw [hbufeq]; omega)]
    exact read_alloc ha _
  · exact addH_frame (by rw [hbufeq]; omega) (by rw [hbufeq, hlen1]; omega)
  · exact removeH_frame (by rw [hbufeq]; omega)

/-- C7: `isSubsetOf` is true exactly when every live element of the receiver
is contained in the other set; an empty set is a subset of every set. -/
theorem isSubsetOf_spec (A B : IntSet) :
    (A.isSubsetOf B = true ↔ ∀ v ∈ A.live, B.contains v = true) ∧
    (A.isEmpty = true → A.isSubsetOf B = true) :=
  ⟨isSubsetOf_iff, isSubsetOf_of_empty⟩

/-- C8: `operator==` is mutual `isSubsetOf`, i.e. agreement of `contains` on
every value; it is reflexive and symmetric, two empty sets are equal, and the
sets built by inserting [3,1,2] and [1,3,2] are equal. -/
theorem equals_spec (DC : Nat) (hDC : 1 ≤ DC) (a b : IntSet) :
    equals a b = (a.isSubsetOf b && b.isSubsetOf a) ∧
    (equals a b = true ↔ ∀ v : Int, a.contains v = true ↔ b.contains v = true) ∧
    equals a a = true ∧
    equals a b = equals b a ∧
    (a.isEmpty = true → b.isEmpty = true → equals a b = true) ∧
    equals (addAll DC (create DC (DC : Int)) [3, 1, 2])
      (addAll DC (create DC (DC : Int)) [1, 3, 2]) = true := by
  refine ⟨equals_eq a b, equals_iff_same_members, ?_, ?_, ?_, ?_⟩
  · exact equals_iff_same_members.mpr fun v => Iff.rfl
  · rw [equals_eq, equals_eq, Bool.and_comm]
  · intro hea heb
    rw [equals_eq, isSubsetOf_of_empty hea, isSubsetOf_of_empty heb]
    rfl
  · have hwf : (create DC (DC : Int)).wf := create_wf _ hDC
    have h1 := addAll_live DC [3, 1, 2] (create DC (DC : Int)) hwf (by decide) (by simp)
    have h2 := addAll_live DC [1, 3, 2] (create DC (DC : Int)) hwf (by decide) (by simp)
    rw [equals_iff_same_members]
    intro v
    rw [contains_iff, contains_iff, h1.1, h2.1]
    simp only [create_live, List.nil_append, List.mem_cons, List.not_mem_nil, or_false]
    omega

/-- C9: self-assignment is a no-op; assignment between distinct objects makes
the target adopt the source's capacity, used count, contents and order, so all
observables (size, contains, dump) agree with the source afterwards. -/
theorem assign_spec (s rhs : IntSet) (hr : rhs.wf) :
    s.assign s true = s ∧
    (s.assign rhs false).capacity = rhs.capacity ∧
    (s.assign rhs false).used = rhs.used ∧
    (s.assign rhs false).live = rhs.live ∧
    (s.assign rhs false).DumpData = rhs.DumpData ∧
    ∀ v : Int, (s.assign rhs false).contains v = rhs.contains v := by
  have hle : rhs.used ≤ rhs.data.length := hr.2.2.1 ▸ hr.1
  have hlv : (s.assign rhs false).live = rhs.live := assign_other_live hle
  refine ⟨rfl, rfl, rfl, hlv, ?_, ?_⟩
  · rw [DumpData_eq, DumpData_eq, hlv]
  · intro v
    rw [contains_eq_live, contains_eq_live, hlv]

/-- C10: `unionWith` computes exactly the same set (contents and order) as the
simpler copy-then-add-everything procedure: the `contains` guard is redundant
because `add` already refuses existing members. -/
theorem union_guard_redundant (DC : Nat) (s t : IntSet) :
    s.unionWith DC t = s.unionWithSimple DC t := by
  have hfun : (fun (acc : IntSet) (i : Nat) =>
        let v := t.data.getD i 0
        if acc.contains v then acc else (acc.add DC v).2)
      = fun (acc : IntSet) (i : Nat) => (acc.add DC (t.data.getD i 0)).2 := by
    funext acc i
    show (if acc.contains (t.data.getD i 0) then acc else (acc.add DC (t.data.getD i 0)).2)
      = (acc.add DC (t.data.getD i 0)).2
    by_cases hc : acc.contains (t.data.getD i 0) = true
    · rw [if_pos hc, add_of_mem hc]
    · rw [if_neg hc]
  unfold unionWith unionWithSimple
  rw [hfun]

/-! ### Concrete witnesses -/

/-- Witness for C1 at s = {1,2,3}: removing the member 2 and the non-member 5. -/
theorem remove_spec_witness :
    ((addAll 1 (create 1 1) [1, 2, 3]).remove 2).2.live = [1, 3] ∧
    ((addAll 1 (create 1 1) [1, 2, 3]).remove 5) = (false, addAll 1 (create 1 1) [1, 2, 3]) := by
  have h2 := remove_spec (addAll 1 (create 1 1) [1, 2, 3]) 2 (by decide)
  have h5 := remove_spec (addAll 1 (create 1 1) [1, 2, 3]) 5 (by decide)
  refine ⟨?_, h5.2 (by decide)⟩
  rw [(h2.1 (by decide)).2.1]
  decide

/-- Witness for C2 at s = {1,2}: adding the fresh 3 and the duplicate 2. -/
theorem add_spec_witness :
    ((addAll 1 (create 1 1) [1, 2]).add 1 3).2.live = [1, 2, 3] ∧
    ((addAll 1 (create 1 1) [1, 2]).add 1 2) = (false, addAll 1 (create 1 1) [1, 2]) := by
  have h3 := add_spec 1 (addAll 1 (create 1 1) [1, 2]) 3 (by decide)
  have h2 := add_spec 1 (addAll 1 (create 1 1) [1, 2]) 2 (by decide)
  refine ⟨?_, h2.1 (by decide)⟩
  rw [(h3.2 (by decide)).2.2.2.1]
  decide

/-- Witness for C3 at concrete sets. -/
theorem wf_preservation_witness :
    (create 1 0).wf ∧
    ((addAll 1 (create 1 1) [1, 2]).unionWith 1 (addAll 1 (create 1 1) [2, 3])).wf := by
  have h := wf_preservation 1 (by decide) (addAll 1 (create 1 1) [1, 2])
    (addAll 1 (create 1 1) [2, 3]) (by decide) (by decide) 0 (-5) 7 true
  exact ⟨h.1, h.2.2.2.2.2.2.2.1⟩

/-- Witness for C4 at DEFAULT_CAPACITY = 1: two distinct insertions into a
default-constructed set, and the full-buffer growth 1 → 2. -/
theorem growth_policy_spec_witness :
    (addAll 1 (create 1 ((1 : Nat) : Int)) [10, 20]).size = 2 ∧
    ((addAll 1 (create 1 1) [1]).add 1 9).2.capacity = 2 := by
  have h := growth_policy_spec 1 (by decide) (addAll 1 (create 1 1) [1]) (by decide)
    0 9 [10, 20] (by decide) (by decide)
  refine ⟨h.2.2.2.2.1, ?_⟩
  rw [h.2.2.2.1 (by decide) (by decide)]
  decide

/-- Witness for C5 at A = {1,2,3}, B = {2,3,4}. -/
theorem setops_spec_witness :
    ((addAll 1 (create 1 1) [1, 2, 3]).unionWith 1 (addAll 1 (create 1 1) [2, 3, 4])).DumpData
        = "1  2  3  4" ∧
    ((addAll 1 (create 1 1) [1, 2, 3]).intersect (addAll 1 (create 1 1) [2, 3, 4])).DumpData
        = "2  3" ∧
    ((addAll 1 (create 1 1) [1, 2, 3]).subtract (addAll 1 (create 1 1) [2, 3, 4])).DumpData
        = "1" := by
  have h := setops_spec 1 (addAll 1 (create 1 1) [1, 2, 3]) (addAll 1 (create 1 1) [2, 3, 4])
    (by decide) (by decide)
  exact h.2.2.2 (by decide) (by decide)

/-- Witness for C7: the empty set is a subset of itself and of {7}. -/
theorem isSubsetOf_spec_witness :
    (create 1 1).isSubsetOf (create 1 1) = true ∧
    (create 1 1).isSubsetOf (addAll 1 (create 1 1) [7]) = true := by
  have h1 := isSubsetOf_spec (create 1 1) (create 1 1)
  have h2 := isSubsetOf_spec (create 1 1) (addAll 1 (create 1 1) [7])
  exact ⟨h1.2 (by decide), h2.2 (by decide)⟩

/-- Witness for C8: insertion orders [3,1,2] and [1,3,2] give equal sets. -/
theorem equals_spec_witness :
    equals (addAll 1 (create 1 ((1 : Nat) : Int)) [3, 1, 2])
      (addAll 1 (create 1 ((1 : Nat) : Int)) [1, 3, 2]) = true := by
  have h := equals_spec 1 (by decide) (create 1 1) (create 1 1)
  exact h.2.2.2.2.2

/-- Witness for C9: self-assignment of {4,5} and assignment into a fresh set. -/
theorem assign_spec_witness :
    (addAll 1 (create 1 1) [4, 5]).assign (addAll 1 (create 1 1) [4, 5]) true
        = addAll 1 (create 1 1) [4, 5] ∧
    ((create 1 1).assign (addAll 1 (create 1 1) [4, 5]) false).live = [4, 5] := by
  have h1 := assign_spec (addAll 1 (create 1 1) [4, 5]) (addAll 1 (create 1 1) [4, 5]) (by decide)
  have h2 := assign_spec (create 1 1) (addAll 1 (create 1 1) [4, 5]) (by decide)
  refine ⟨h1.1, ?_⟩
  rw [h2.2.2.2.1]
  decide

end IntSet

/-- Witness for C6 on a two-object heap. -/
theorem independence_spec_witness :
    (unionWithH 1 ⟨[[1, 0], [2, 0]]⟩ ⟨0, 2, 1⟩ ⟨1, 2, 1⟩).2.buf ≠ 0 ∧
    (copyCtorH ⟨[[1, 0], [2, 0]]⟩ ⟨0, 2, 1⟩).1.read ⟨0, 2, 1⟩
        = Heap.read ⟨[[1, 0], [2, 0]]⟩ ⟨0, 2, 1⟩ := by
  have h := IntSet.independence_spec 1 ⟨[[1, 0], [2, 0]]⟩ ⟨0, 2, 1⟩ ⟨1, 2, 1⟩ 5 (by decide) (by decide)
  exact ⟨h.1.2.2.1, h.2.2.2.2.1⟩

end IntSetSpec
